import Mathlib

/-!
Shallow embedding of the chunking and retrieval logic of the
langchain-rag-pipeline repository (src/smart_pdf_splitter.py and
src/ai_rag_chat.py), together with proofs settling the frozen claims
about it.  Text is modelled as `List Char`; each Python regex
substitution is transcribed as a structurally recursive state machine
over the character list, so that every definition evaluates by `decide`.
Similarity scores, which the Python code holds as floats, are modelled
as rationals; the concrete score values appearing in the claims are
exact in both representations.
-/

/-! ## Character classes -/

/-- Whitespace class of the Python regex `\s` restricted to ASCII:
space, tab, newline, carriage return, vertical tab, form feed.  The
only whitespace the claims exercise are the space and the newline. -/
def pyWs (c : Char) : Bool :=
  c == ' ' || c == '\t' || c == '\n' || c == '\r' || c == '\x0b' || c == '\x0c'

/-- The sentence-ending punctuation class `[.!?]` used throughout
smart_pdf_splitter.py. -/
def isPunct3 (c : Char) : Bool := c == '.' || c == '!' || c == '?'

/-- The quote class `["']` of the sentence-ending pattern. -/
def isQuoteC (c : Char) : Bool := c == '"' || c == '\''

/-- The soft punctuation class `,;:` of the last fallback in
find_smart_break. -/
def isSoftPunct (c : Char) : Bool := c == ',' || c == ';' || c == ':'

/-- ASCII digit, the `\d` class of the page-number removal regex. -/
def isDig (c : Char) : Bool := '0' ≤ c && c ≤ '9'

/-! ## clean_text (smart_pdf_splitter.py lines 46-69)

The pipeline is, in source order:
  1. `re.sub(r'\s+', ' ', text)`            — collapse whitespace runs
  2. `re.sub(r'\n+', '\n', text)`           — collapse newline runs
  3. `re.sub(r'^\d+\s*$', '', text, re.M)`  — drop bare digit lines
  4. `re.sub(r'\s+([.!?])', r'\1', text)`   — no space before .!?
  5. `re.sub(r'([.!?])\s*', r'\1 ', text)`  — one space after .!?
  6. `text.strip()`
Each substitution is transcribed as a left-to-right scan, exactly the
order in which `re.sub` rewrites non-overlapping matches. -/

/-- Scan for step 1.  The flag records whether the scanner stands
inside a whitespace run whose first character has already been replaced
by the single space. -/
def collapseWsAux : Bool → List Char → List Char
  | _, [] => []
  | inRun, c :: cs =>
    if pyWs c then
      if inRun then collapseWsAux true cs else ' ' :: collapseWsAux true cs
    else c :: collapseWsAux false cs

/-- Step 1 of clean_text: every maximal run of whitespace becomes one
space (`re.sub` of `\s+` by a space). -/
def collapseWs (l : List Char) : List Char := collapseWsAux false l

/-- Scan for step 2, same shape as `collapseWsAux` with the newline as
the class. -/
def collapseNlAux : Bool → List Char → List Char
  | _, [] => []
  | inRun, c :: cs =>
    if c == '\n' then
      if inRun then collapseNlAux true cs else '\n' :: collapseNlAux true cs
    else c :: collapseNlAux false cs

/-- Step 2 of clean_text: every run of newlines becomes one newline. -/
def collapseNl (l : List Char) : List Char := collapseNlAux false l

/-- Attempt to match `^\d+\s*$` (MULTILINE) at the head of `l`, which
is assumed to be a line start.  `\d+` takes the leading digit run;
`\s*` is greedy but backtracks until `$` holds, and with MULTILINE `$`
holds at the end of the string or just before a newline.  On success,
returns the last consumed character (the scanner needs it to know
whether it still stands at a line start) and the unconsumed rest. -/
def dlMatch (l : List Char) : Option (Char × List Char) :=
  let ds := l.takeWhile isDig
  if ds.isEmpty then none
  else
    let rest := l.drop ds.length
    let ws := rest.takeWhile pyWs
    let ks := (List.range (ws.length + 1)).reverse
    match ks.find? (fun k => (rest.drop k).isEmpty || ((rest.drop k).headD 'x' == '\n')) with
    | some k => some ((ds ++ ws.take k).getLastD '0', rest.drop k)
    | none => none

/-- Scanner for step 3.  The Boolean records whether the current
position is a line start (position 0 or just after a newline); the
fuel is an upper bound on the remaining length, consumed one unit per
step so that the recursion is structural. -/
def rdlAux : Nat → Bool → List Char → List Char
  | 0, _, l => l
  | _ + 1, _, [] => []
  | fuel + 1, atStart, c :: cs =>
    if atStart then
      match dlMatch (c :: cs) with
      | some (lastC, remainder) => rdlAux fuel (lastC == '\n') remainder
      | none => c :: rdlAux fuel (c == '\n') cs
    else c :: rdlAux fuel (c == '\n') cs

/-- Step 3 of clean_text: remove every line consisting of digits
alone (page-number artifacts), the MULTILINE substitution of
`^\d+\s*$` by the empty string. -/
def removeDigitLines (l : List Char) : List Char := rdlAux l.length true l

/-- Scan for step 4.  `pend` holds the whitespace run read so far (in
reverse); when the run turns out to be followed by one of `.!?` the
run is dropped, otherwise it is flushed unchanged. -/
def remWsPunctAux : List Char → List Char → List Char
  | pend, [] => pend.reverse
  | pend, c :: cs =>
    if pyWs c then remWsPunctAux (c :: pend) cs
    else if isPunct3 c && !pend.isEmpty then c :: remWsPunctAux [] cs
    else pend.reverse ++ c :: remWsPunctAux [] cs

/-- Step 4 of clean_text: delete whitespace standing immediately
before `.`, `!` or `?` (`re.sub` of `\s+([.!?])` by the group). -/
def remWsPunct (l : List Char) : List Char := remWsPunctAux [] l

/-- Scan for step 5.  After rewriting a punctuation mark the scanner
must skip the whitespace the `\s*` of the pattern consumed; the flag
records that state. -/
def spaceAfterPunctAux : Bool → List Char → List Char
  | _, [] => []
  | skip, c :: cs =>
    if skip && pyWs c then spaceAfterPunctAux true cs
    else if isPunct3 c then c :: ' ' :: spaceAfterPunctAux true cs
    else c :: spaceAfterPunctAux false cs

/-- Step 5 of clean_text: every `.`, `!` or `?` is followed by exactly
one space (`re.sub` of `([.!?])\s*` by the group and a space). -/
def spaceAfterPunct (l : List Char) : List Char := spaceAfterPunctAux false l

/-- Leading-whitespace trim, half of Python str.strip. -/
def lstrip (l : List Char) : List Char := l.dropWhile pyWs

/-- Trailing-whitespace trim, the other half of str.strip. -/
def rstrip (l : List Char) : List Char := (l.reverse.dropWhile pyWs).reverse

/-- Python str.strip: drop leading and trailing whitespace. -/
def pstrip (l : List Char) : List Char := rstrip (lstrip l)

/-- SmartPDFSplitter.clean_text (smart_pdf_splitter.py lines 46-69):
the six steps in source order. -/
def clean_text (text : List Char) : List Char :=
  pstrip (spaceAfterPunct (remWsPunct (removeDigitLines (collapseNl (collapseWs text)))))

/-- RAGChatSystem.clean_query (ai_rag_chat.py lines 151-186): the same
whitespace collapse, punctuation spacing and trim as clean_text, but
without the newline collapse and without the digit-line removal. -/
def clean_query (query : List Char) : List Char :=
  pstrip (spaceAfterPunct (remWsPunct (collapseWs query)))

/-! ## is_sentence_boundary (smart_pdf_splitter.py lines 71-108) -/

/-- The abbreviation set of SmartPDFSplitter.__init__ (lines 40-44),
copied with the exact characters the source file holds. -/
def abbreviations : List String :=
  ["Dr.", "Sr.", "Sra.", "Prof.", "etc.", "vs.", "i.e.", "e.g.",
   "p√°g.", "p.", "cap.", "vol.", "ed.", "n¬∫", "n¬∞", "art.",
   "inc.", "corp.", "co.", "ltd.", "llc.", "inc", "corp"]

/-- Python substring containment (`abbr in before_text`) on character
lists. -/
def containsSub : List Char → List Char → Bool
  | pat, [] => pat.isEmpty
  | pat, c :: t => pat.isPrefixOf (c :: t) || containsSub pat t

/-- Existence of a match of `[.!?]+["']*\s+` inside `s`
(`re.search(self.sentence_endings, ...)` is only tested for truth).
A match exists exactly when some position `i` carries a mark of `.!?`,
some later position `m` carries whitespace, and everything strictly
between the two is punctuation or quotes: given such a pair, the last
punctuation mark before `m` starts a literal match, and conversely a
match yields such a pair directly. -/
def sentenceEndingSearch (s : List Char) : Bool :=
  (List.range s.length).any fun i =>
    (List.range s.length).any fun m =>
      decide (i < m) && isPunct3 (s.getD i ' ') && pyWs (s.getD m 'x') &&
        ((List.range s.length).all fun j =>
          !(decide (i < j) && decide (j < m)) ||
            (isPunct3 (s.getD j ' ') || isQuoteC (s.getD j ' ')))

/-- SmartPDFSplitter.is_sentence_boundary (lines 71-108).  With `pos`
a natural number, the Python guard `pos >= len(text) - 1` is the
truncated comparison `len - 1 <= pos` (for the empty text the Python
guard always holds, and so does the truncated one).  The slice
`text[pos:pos+10]` is `take 10` of `drop pos`, and the slice
`text[max(0, pos-30):pos+1]` is `drop (pos-30)` of `take (pos+1)`
under truncated subtraction.  The two look-ahead checks of lines
96-106 are kept although every branch from there returns True, as in
the source. -/
def is_sentence_boundary (text : List Char) (pos : Nat) : Bool :=
  if text.length - 1 ≤ pos then true
  else
    let window := (text.drop pos).take 10
    if !sentenceEndingSearch window then false
    else
      let beforeText := (text.take (pos + 1)).drop (pos - 30)
      if abbreviations.any (fun a => containsSub a.toList beforeText) then false
      else
        if pos + 1 < text.length &&
            ((text.getD (pos + 1) ' ').isUpper && (text.getD (pos + 1) ' ').isAlpha) then
          true
        else
          if pos + 2 < text.length &&
              (pyWs (text.getD (pos + 1) ' ') && (text.getD (pos + 2) ' ').isUpper) then
            true
          else true

/-! ## find_smart_break (smart_pdf_splitter.py lines 110-167) -/

/-- Absolute distance between two naturals, the `abs(i - target)` of
the scoring loop. -/
def distN (i t : Nat) : Nat := if t ≤ i then i - t else t - i

/-- One step of the scoring loop of find_smart_break (lines 129-147).
The accumulator holds the best break and the best score; `none` stands
for the initial `float('inf')`, below which every score falls.  The
float factors 0.5, 0.8 and 0.7 are the exact rationals 1/2, 4/5 and
7/10 here. -/
def fsbStep (text : List Char) (target : Nat) (acc : Nat × Option ℚ) (i : Nat) :
    Nat × Option ℚ :=
  if is_sentence_boundary text i then
    let d := distN i target
    let base : ℚ := (d : ℚ)
    let scaled := if d ≤ 50 then base * (1/2) else if d ≤ 100 then base * (4/5) else base
    let score := if isPunct3 (text.getD i ' ') then scaled * (7/10) else scaled
    match acc.2 with
    | none => (i, some score)
    | some best => if score < best then (i, some score) else acc
  else acc

/-- Whether `text[i:i+2] == '\n\n'`, the paragraph-break test of the
second fallback. -/
def paraBreakAt (text : List Char) (i : Nat) : Bool :=
  ((text.drop i).take 2) == ['\n', '\n']

/-- The offsets the three passes of find_smart_break scan:
`range(max(0, target - 150), min(len(text), target + 150))`, written
with the truncated subtraction playing the role of the outer max
(they agree for every natural target). -/
def fsbIdxs (text : List Char) (target : Nat) : List Nat :=
  List.range' (target - 150) (min text.length (target + 150) - (target - 150))

/-- The test of the second fallback (lines 150-156): the first offset
whose two-character slice is the paragraph break and whose distance
from the target is at most 100 is taken. -/
def fsbParaPred (text : List Char) (target i : Nat) : Bool :=
  paraBreakAt text i && decide (distN i target ≤ 100)

/-- The test of the third fallback (lines 158-165), same shape with
the soft punctuation class. -/
def fsbSoftPred (text : List Char) (target i : Nat) : Bool :=
  isSoftPunct (text.getD i ' ') && decide (distN i target ≤ 100)

/-- SmartPDFSplitter.find_smart_break (lines 110-167).  The scoring
pass keeps the first offset of minimal score (strict `<` on update);
if it never moved off the target, the first paragraph break passing
`fsbParaPred` is taken; if still unmoved, the first soft punctuation
mark passing `fsbSoftPred`. -/
def find_smart_break (text : List Char) (target : Nat) : Nat :=
  let best1 := ((fsbIdxs text target).foldl (fsbStep text target) (target, none)).1
  let best2 :=
    if best1 = target then
      match (fsbIdxs text target).find? (fsbParaPred text target) with
      | some i => i
      | none => best1
    else best1
  if best2 = target then
    match (fsbIdxs text target).find? (fsbSoftPred text target) with
    | some i => i
    | none => best2
  else best2

/-! ## split_text_smart (smart_pdf_splitter.py lines 169-209) -/

/-- The four size parameters of SmartPDFSplitter.__init__. -/
structure Cfg where
  chunk_size : Nat
  chunk_overlap : Nat
  min_chunk_size : Nat
  max_chunk_size : Nat

/-- The cursor update of line 203:
`start = max(start + 1, break_pos - self.chunk_overlap)`, with the
truncated subtraction again agreeing with Python where the difference
is negative (both give a value the `start + 1` arm dominates). -/
def nextStart (cfg : Cfg) (start breakPos : Nat) : Nat :=
  max (start + 1) (breakPos - cfg.chunk_overlap)

/-- The guard of lines 189 and 199: a stripped chunk is emitted only
if it is non-empty (Python truthiness) and reaches min_chunk_size. -/
def keepChunk (cfg : Cfg) (chunk : List Char) : Bool :=
  !chunk.isEmpty && cfg.min_chunk_size ≤ chunk.length

/-- The while loop of split_text_smart, fuel-indexed so that the
recursion is structural; `split_text_smart` runs it with fuel equal to
the text length, which theorem `splitLoopF_isSome_of_fuel` below
proves sufficient (the claim C4 theorem instantiates it).  One fuel
unit is consumed per iteration; `none` reports exhaustion and is never
returned at sufficient fuel. -/
def splitLoopF (cfg : Cfg) (text : List Char) :
    Nat → Nat → List (List Char) → Option (List (List Char))
  | 0, start, acc => if start < text.length then none else some acc
  | fuel + 1, start, acc =>
    if start < text.length then
      let e := start + cfg.chunk_size
      if text.length ≤ e then
        let chunk := pstrip (text.drop start)
        some (if keepChunk cfg chunk then acc ++ [chunk] else acc)
      else
        let breakPos := find_smart_break text e
        let chunk := pstrip ((text.take breakPos).drop start)
        let acc' := if keepChunk cfg chunk then acc ++ [chunk] else acc
        splitLoopF cfg text fuel (nextStart cfg start breakPos) acc'
    else some acc

/-- SmartPDFSplitter.split_text_smart (lines 169-209). -/
def split_text_smart (cfg : Cfg) (text : List Char) : List (List Char) :=
  (splitLoopF cfg text text.length 0 []).getD []

/-! ## Quality filter and external calls (ai_rag_chat.py) -/

/-- The similarity threshold set in RAGChatSystem.__init__ (line 46),
as an exact rational. -/
def similarity_threshold : ℚ := 0.45

/-- RAGChatSystem.filter_quality_results (lines 66-84), transcribed as
the source's accumulation loop: for each scored match the distance is
`1 - score` and the match is appended when
`distance <= 1 - similarity_threshold`.  Scores are rationals here;
the document side is any type. -/
def filter_quality_results {α : Type} (results : List (α × ℚ)) : List (α × ℚ) :=
  results.foldl
    (fun acc m =>
      let distance := 1 - m.2
      if distance ≤ 1 - similarity_threshold then acc ++ [m] else acc)
    []

/-- RAGChatSystem.search_documents (lines 48-64).  The outcome of the
external call `self.vector_store.similarity_search_with_score` is
passed in as a value: `Except.ok` carries its results, `Except.error`
the exception message.  The source catches every exception, prints,
and returns the empty list. -/
def search_documents {α : Type} (callResult : Except String (List (α × ℚ))) :
    List (α × ℚ) :=
  match callResult with
  | .ok results => results
  | .error _ => []

/-- RAGChatSystem.get_ai_response (lines 127-149).  The outcome of the
external chain invocation is passed in as a value; the source catches
every exception and returns the formatted message
`"Error getting AI response: "` followed by the exception text, as an
ordinary answer string. -/
def get_ai_response (callResult : Except String String) : String :=
  match callResult with
  | .ok response => response
  | .error e => "Error getting AI response: " ++ e

/-! ## Structural predicates used by the theorems -/

/-- No newline occurs in the list. -/
def noNl (l : List Char) : Bool := l.all (fun c => !(c == '\n'))

/-- Every whitespace character in the list is the plain space. -/
def wsSp (l : List Char) : Bool := l.all (fun c => !pyWs c || c == ' ')

/-- No two adjacent whitespace characters. -/
def noDouble : List Char → Bool
  | a :: b :: t => !(pyWs a && pyWs b) && noDouble (b :: t)
  | _ => true

/-- No whitespace character immediately before a `.!?` mark. -/
def noWsPunct : List Char → Bool
  | a :: b :: t => !(pyWs a && isPunct3 b) && noWsPunct (b :: t)
  | _ => true

/-- A character that is neither whitespace nor one of `.!?`. -/
def plainC (c : Char) : Bool := !pyWs c && !isPunct3 c

/-- The shape of every clean_text output: tokens of plain characters
and punctuation marks, single spaces between them, a space before a
mark only when another mark precedes the space (the space the
one-space-after-punctuation step itself wrote), and no whitespace at
either end.  Theorem `clean_text_norm` below shows every clean_text
output has this shape, and `norm_fixed` that the shape makes the
whitespace and punctuation steps of a second pass cancel out. -/
inductive TNorm : List Char → Prop
  | nil : TNorm []
  | punct_last (p : Char) : isPunct3 p = true → TNorm [p]
  | punct_sp (p c : Char) (cs : List Char) :
      isPunct3 p = true → pyWs c = false → TNorm (c :: cs) → TNorm (p :: ' ' :: c :: cs)
  | plain_last (c : Char) : plainC c = true → TNorm [c]
  | plain_cons (c d : Char) (ds : List Char) :
      plainC c = true → pyWs d = false → TNorm (d :: ds) → TNorm (c :: d :: ds)
  | plain_sp (c d : Char) (ds : List Char) :
      plainC c = true → plainC d = true → TNorm (d :: ds) → TNorm (c :: ' ' :: d :: ds)

/-! ## Small lemma kit: character classes and strips -/

theorem pyWs_false_of_punct {p : Char} (h : isPunct3 p = true) : pyWs p = false := by
  simp only [isPunct3, Bool.or_eq_true, beq_iff_eq] at h
  rcases h with (h | h) | h <;> subst h <;> decide

theorem lstrip_cons_of_nonws {c : Char} (l : List Char) (h : pyWs c = false) :
    lstrip (c :: l) = c :: l := by
  simp [lstrip, List.dropWhile_cons, h]

theorem rstrip_nil : rstrip ([] : List Char) = [] := rfl

theorem rstrip_cons (c : Char) (l : List Char) :
    rstrip (c :: l) =
      if rstrip l = [] then (if pyWs c then [] else [c]) else c :: rstrip l := by
  simp only [rstrip, List.reverse_cons, List.dropWhile_append]
  by_cases h : (l.reverse.dropWhile pyWs) = []
  · rw [h]
    simp only [List.isEmpty_nil, if_true, List.dropWhile_cons, List.dropWhile_nil,
      List.reverse_nil, List.reverse_eq_nil_iff]
    by_cases hw : pyWs c
    · simp [hw]
    · simp [hw]
  · have hne : (l.reverse.dropWhile pyWs).isEmpty = false := by
      simp [List.isEmpty_iff, h]
    simp [hne, List.reverse_append, List.reverse_eq_nil_iff, h]

theorem rstrip_cons_ne_nil {c : Char} (l : List Char) (h : pyWs c = false) :
    rstrip (c :: l) ≠ [] := by
  rw [rstrip_cons]
  by_cases h2 : rstrip l = [] <;> simp [h2, h]

theorem rstrip_cons_of_ne_nil {c : Char} {l : List Char} (h : rstrip l ≠ []) :
    rstrip (c :: l) = c :: rstrip l := by
  rw [rstrip_cons, if_neg h]

theorem pstrip_nil : pstrip ([] : List Char) = [] := rfl

theorem pstrip_cons_of_nonws {c : Char} (l : List Char) (h : pyWs c = false) :
    pstrip (c :: l) = rstrip (c :: l) := by
  rw [pstrip, lstrip_cons_of_nonws _ h]

/-! ## Membership lemmas: every stage only drops characters or writes
spaces or newlines it saw, so a character class absent from the input
stays absent. -/

theorem mem_collapseWsAux {c : Char} :
    ∀ (b : Bool) (l : List Char), c ∈ collapseWsAux b l → c = ' ' ∨ c ∈ l := by
  intro b l
  induction l generalizing b with
  | nil => intro h; simp [collapseWsAux] at h
  | cons a t ih =>
    intro h
    simp only [collapseWsAux] at h
    split at h
    · split at h
      · rcases ih _ h with h1 | h1 <;> simp [h1]
      · rcases List.mem_cons.1 h with h1 | h1
        · exact Or.inl h1
        · rcases ih _ h1 with h2 | h2 <;> simp [h2]
    · rcases List.mem_cons.1 h with h1 | h1
      · simp [h1]
      · rcases ih _ h1 with h2 | h2 <;> simp [h2]

theorem mem_collapseNlAux {c : Char} :
    ∀ (b : Bool) (l : List Char), c ∈ collapseNlAux b l → c = '\n' ∨ c ∈ l := by
  intro b l
  induction l generalizing b with
  | nil => intro h; simp [collapseNlAux] at h
  | cons a t ih =>
    intro h
    simp only [collapseNlAux] at h
    split at h
    · split at h
      · rcases ih _ h with h1 | h1 <;> simp [h1]
      · rcases List.mem_cons.1 h with h1 | h1
        · exact Or.inl h1
        · rcases ih _ h1 with h2 | h2 <;> simp [h2]
    · rcases List.mem_cons.1 h with h1 | h1
      · simp [h1]
      · rcases ih _ h1 with h2 | h2 <;> simp [h2]

theorem mem_remWsPunctAux {c : Char} :
    ∀ (l pend : List Char), c ∈ remWsPunctAux pend l → c ∈ pend ∨ c ∈ l := by
  intro l
  induction l with
  | nil => intro pend h; simp only [remWsPunctAux, List.mem_reverse] at h; exact Or.inl h
  | cons a t ih =>
    intro pend h
    simp only [remWsPunctAux] at h
    split at h
    · rcases ih (a :: pend) h with h1 | h1
      · rcases List.mem_cons.1 h1 with h2 | h2
        · simp [h2]
        · exact Or.inl h2
      · simp [h1]
    · split at h
      · rcases List.mem_cons.1 h with h1 | h1
        · simp [h1]
        · rcases ih [] h1 with h2 | h2
          · simp at h2
          · simp [h2]
      · rcases List.mem_append.1 h with h1 | h1
        · exact Or.inl (List.mem_reverse.1 h1)
        · rcases List.mem_cons.1 h1 with h2 | h2
          · simp [h2]
          · rcases ih [] h2 with h3 | h3
            · simp at h3
            · simp [h3]

theorem mem_spaceAfterPunctAux {c : Char} :
    ∀ (b : Bool) (l : List Char), c ∈ spaceAfterPunctAux b l → c = ' ' ∨ c ∈ l := by
  intro b l
  induction l generalizing b with
  | nil => intro h; simp [spaceAfterPunctAux] at h
  | cons a t ih =>
    intro h
    simp only [spaceAfterPunctAux] at h
    split at h
    · rcases ih _ h with h1 | h1 <;> simp [h1]
    · split at h
      · rcases List.mem_cons.1 h with h1 | h1
        · simp [h1]
        · rcases List.mem_cons.1 h1 with h2 | h2
          · exact Or.inl h2
          · rcases ih _ h2 with h3 | h3 <;> simp [h3]
      · rcases List.mem_cons.1 h with h1 | h1
        · simp [h1]
        · rcases ih _ h1 with h2 | h2 <;> simp [h2]

theorem mem_pstrip {c : Char} {l : List Char} (h : c ∈ pstrip l) : c ∈ l := by
  simp only [pstrip, rstrip, lstrip] at h
  rw [List.mem_reverse] at h
  have h1 := (List.dropWhile_sublist pyWs).mem h
  rw [List.mem_reverse] at h1
  exact (List.dropWhile_sublist pyWs).mem h1

/-! ## Shape facts about the whitespace collapse -/

theorem noDouble_cons (c : Char) (l : List Char) :
    noDouble (c :: l) = (!(pyWs c && pyWs (l.headD 'x')) && noDouble l) := by
  cases l with
  | nil => simp [noDouble, pyWs]
  | cons y ys => simp [noDouble]

theorem noWsPunct_cons (c : Char) (l : List Char) :
    noWsPunct (c :: l) = (!(pyWs c && isPunct3 (l.headD 'x')) && noWsPunct l) := by
  cases l with
  | nil => simp [noWsPunct, isPunct3]
  | cons y ys => simp [noWsPunct]

theorem noDouble_tail {c : Char} {l : List Char} (h : noDouble (c :: l) = true) :
    noDouble l = true := by
  rw [noDouble_cons, Bool.and_eq_true] at h
  exact h.2

theorem noWsPunct_tail {c : Char} {l : List Char} (h : noWsPunct (c :: l) = true) :
    noWsPunct l = true := by
  rw [noWsPunct_cons, Bool.and_eq_true] at h
  exact h.2

theorem headD_collapseWsAux_true (l : List Char) :
    pyWs ((collapseWsAux true l).headD 'x') = false := by
  induction l with
  | nil => decide
  | cons a t ih =>
    simp only [collapseWsAux]
    by_cases hw : pyWs a
    · simpa [hw] using ih
    · simp [hw]

theorem wsSp_collapseWsAux (b : Bool) (l : List Char) : wsSp (collapseWsAux b l) = true := by
  induction l generalizing b with
  | nil => cases b <;> decide
  | cons a t ih =>
    simp only [collapseWsAux]
    by_cases hw : pyWs a
    · cases b with
      | true => simpa [hw] using ih true
      | false =>
        simp only [hw, if_true, if_false, Bool.false_eq_true, wsSp, List.all_cons]
        rw [Bool.and_eq_true]
        exact ⟨by decide, by simpa [wsSp] using ih true⟩
    · simp only [hw, if_false, Bool.false_eq_true, wsSp, List.all_cons]
      rw [Bool.and_eq_true]
      exact ⟨by simp [hw], by simpa [wsSp] using ih false⟩

theorem noDouble_collapseWsAux (b : Bool) (l : List Char) :
    noDouble (collapseWsAux b l) = true := by
  induction l generalizing b with
  | nil => cases b <;> decide
  | cons a t ih =>
    simp only [collapseWsAux]
    by_cases hw : pyWs a
    · cases b with
      | true => simpa [hw] using ih true
      | false =>
        simp only [hw, if_true, if_false, Bool.false_eq_true]
        rw [noDouble_cons, Bool.and_eq_true]
        refine ⟨?_, ih true⟩
        have hh := headD_collapseWsAux_true t
        simp only [List.headD] at hh ⊢
        simp [hh]
    · simp only [hw, if_false, Bool.false_eq_true]
      rw [noDouble_cons, Bool.and_eq_true]
      exact ⟨by simp [hw], ih false⟩

theorem wsSp_collapseWs (l : List Char) : wsSp (collapseWs l) = true :=
  wsSp_collapseWsAux false l

theorem noDouble_collapseWs (l : List Char) : noDouble (collapseWs l) = true :=
  noDouble_collapseWsAux false l

theorem noNl_of_wsSp {l : List Char} (h : wsSp l = true) : noNl l = true := by
  rw [noNl, List.all_eq_true]
  intro c hc
  have h1 := List.all_eq_true.1 h c hc
  simp only [Bool.or_eq_true, Bool.not_eq_eq_eq_not, Bool.not_true, beq_iff_eq] at h1
  simp only [Bool.not_eq_eq_eq_not, Bool.not_true, beq_eq_false_iff_ne, ne_eq]
  intro hcn
  subst hcn
  rcases h1 with h1 | h1
  · exact absurd h1 (by decide)
  · exact absurd h1 (by decide)

/-! ## Identity of the newline collapse and the digit-line removal on
newline-free input -/

theorem collapseNlAux_id {l : List Char} (h : noNl l = true) : collapseNlAux false l = l := by
  induction l with
  | nil => rfl
  | cons a t ih =>
    rw [noNl, List.all_cons, Bool.and_eq_true] at h
    have hc : (a == '\n') = false := by simpa using h.1
    simp only [collapseNlAux, hc, Bool.false_eq_true, if_false]
    rw [ih h.2]

theorem collapseNl_id {l : List Char} (h : noNl l = true) : collapseNl l = l :=
  collapseNlAux_id h

theorem rdlAux_false_id {fuel : Nat} :
    ∀ {l : List Char}, noNl l = true → rdlAux fuel false l = l := by
  induction fuel with
  | zero => intro l _; rfl
  | succ f ih =>
    intro l h
    cases l with
    | nil => rfl
    | cons c cs =>
      rw [noNl, List.all_cons, Bool.and_eq_true] at h
      have hc : (c == '\n') = false := by simpa using h.1
      simp only [rdlAux, Bool.false_eq_true, if_false, hc]
      rw [ih h.2]

theorem dlMatch_remainder_nil {l : List Char} {lc : Char} {rem : List Char}
    (hm : dlMatch l = some (lc, rem)) (h : noNl l = true) : rem = [] := by
  unfold dlMatch at hm
  by_cases hds : (l.takeWhile isDig).isEmpty
  · simp [hds] at hm
  · simp only [hds, Bool.false_eq_true, if_false] at hm
    set rest := l.drop (l.takeWhile isDig).length with hrest
    rcases hk : (List.range ((rest.takeWhile pyWs).length + 1)).reverse.find?
        (fun k => (rest.drop k).isEmpty || ((rest.drop k).headD 'x' == '\n')) with _ | ⟨k⟩
    · rw [hk] at hm; simp at hm
    · rw [hk] at hm
      simp only [Option.some.injEq, Prod.mk.injEq] at hm
      have hpred := List.find?_some hk
      simp only [Bool.or_eq_true] at hpred
      rcases hpred with hp | hp
      · rw [← hm.2]
        simpa [List.isEmpty_iff] using hp
      · exfalso
        rcases he : rest.drop k with _ | ⟨y, ys⟩
        · rw [he] at hp; simp at hp
        · rw [he] at hp
          simp only [List.headD_cons, beq_iff_eq] at hp
          subst hp
          have hy : '\n' ∈ l := by
            have h1 : '\n' ∈ rest.drop k := by rw [he]; exact List.mem_cons_self _ _
            have h2 : '\n' ∈ rest := (List.drop_sublist _ _).mem h1
            exact (List.drop_sublist _ _).mem h2
          have := List.all_eq_true.1 h '\n' hy
          simp at this

theorem rdlAux_true_dichotomy {fuel : Nat} :
    ∀ {l : List Char}, noNl l = true → l.length ≤ fuel →
      rdlAux fuel true l = l ∨ rdlAux fuel true l = [] := by
  induction fuel with
  | zero => intro l _ _; exact Or.inl rfl
  | succ f ih =>
    intro l h hlen
    cases l with
    | nil => exact Or.inr rfl
    | cons c cs =>
      rcases hm : dlMatch (c :: cs) with _ | ⟨lc, rem⟩
      · rw [noNl, List.all_cons, Bool.and_eq_true] at h
        have hc : (c == '\n') = false := by simpa using h.1
        simp only [rdlAux, if_true, hm, hc]
        rw [rdlAux_false_id h.2]
        exact Or.inl rfl
      · have hrem := dlMatch_remainder_nil hm h
        subst hrem
        simp only [rdlAux, if_true, hm]
        right
        cases f <;> rfl

theorem removeDigitLines_dichotomy {l : List Char} (h : noNl l = true) :
    removeDigitLines l = l ∨ removeDigitLines l = [] :=
  rdlAux_true_dichotomy h (Nat.le_refl _)

/-! ## Unfolding equations for the punctuation passes -/

theorem remWsPunct_nil : remWsPunct [] = [] := rfl

theorem remWsPunct_cons_nonws {c : Char} (cs : List Char) (h : pyWs c = false) :
    remWsPunct (c :: cs) = c :: remWsPunct cs := by
  simp [remWsPunct, remWsPunctAux, h]

theorem remWsPunct_ws_single {s : Char} (h : pyWs s = true) : remWsPunct [s] = [s] := by
  simp [remWsPunct, remWsPunctAux, h]

theorem remWsPunct_ws_cons {s c : Char} (cs : List Char) (hs : pyWs s = true)
    (hc : pyWs c = false) :
    remWsPunct (s :: c :: cs) =
      if isPunct3 c then c :: remWsPunct cs else s :: c :: remWsPunct cs := by
  by_cases hp : isPunct3 c <;> simp [remWsPunct, remWsPunctAux, hs, hc, hp]

theorem spaceAfterPunct_nil : spaceAfterPunct [] = [] := rfl

theorem sapAux_true_of_head_nonws {l : List Char} (h : pyWs (l.headD 'x') = false) :
    spaceAfterPunctAux true l = spaceAfterPunctAux false l := by
  cases l with
  | nil => rfl
  | cons a t =>
    simp only [List.headD_cons] at h
    simp [spaceAfterPunctAux, h]

theorem sapAux_true_sp (l : List Char) :
    spaceAfterPunctAux true (' ' :: l) = spaceAfterPunctAux true l := by
  simp only [spaceAfterPunctAux]
  rw [if_pos (show (true && pyWs ' ') = true from by decide)]

theorem spaceAfterPunct_cons_punct {c : Char} (cs : List Char) (h : isPunct3 c = true) :
    spaceAfterPunct (c :: cs) = c :: ' ' :: spaceAfterPunctAux true cs := by
  simp [spaceAfterPunct, spaceAfterPunctAux, h]

theorem spaceAfterPunct_cons_nonpunct {c : Char} (cs : List Char) (h : isPunct3 c = false) :
    spaceAfterPunct (c :: cs) = c :: spaceAfterPunct cs := by
  simp [spaceAfterPunct, spaceAfterPunctAux, h]

theorem sap_rwp_head {c : Char} (cs : List Char) (h : pyWs c = false) :
    ∃ t, spaceAfterPunct (remWsPunct (c :: cs)) = c :: t := by
  rw [remWsPunct_cons_nonws cs h]
  by_cases hp : isPunct3 c
  · exact ⟨_, spaceAfterPunct_cons_punct _ hp⟩
  · exact ⟨_, spaceAfterPunct_cons_nonpunct _ (by simpa using hp)⟩

/-! ## Identity of the whitespace collapse on already collapsed text -/

theorem collapseWsAux_true_of_head_nonws {l : List Char} (h : pyWs (l.headD 'x') = false) :
    collapseWsAux true l = collapseWsAux false l := by
  cases l with
  | nil => rfl
  | cons a t =>
    simp only [List.headD_cons] at h
    simp [collapseWsAux, h]

theorem collapseWs_id {l : List Char} (h1 : wsSp l = true) (h2 : noDouble l = true) :
    collapseWs l = l := by
  induction l with
  | nil => rfl
  | cons a t ih =>
    rw [wsSp, List.all_cons, Bool.and_eq_true] at h1
    by_cases hw : pyWs a
    · have ha : a = ' ' := by
        have hx := h1.1
        rw [Bool.or_eq_true] at hx
        rcases hx with hx | hx
        · rw [hw] at hx; exact absurd hx (by decide)
        · exact beq_iff_eq.1 hx
      have hh : pyWs (t.headD 'x') = false := by
        rw [noDouble_cons, Bool.and_eq_true] at h2
        have := h2.1
        rw [hw] at this
        simpa using this
      show collapseWsAux false (a :: t) = a :: t
      simp only [collapseWsAux, hw, if_true, if_false, Bool.false_eq_true]
      rw [collapseWsAux_true_of_head_nonws hh,
        show collapseWsAux false t = collapseWs t from rfl, ih h1.2 (noDouble_tail h2), ha]
    · show collapseWsAux false (a :: t) = a :: t
      simp only [collapseWsAux, hw, if_false, Bool.false_eq_true]
      rw [show collapseWsAux false t = collapseWs t from rfl, ih h1.2 (noDouble_tail h2)]

/-! ## The normal form is a fixed point of the whitespace-before and
whitespace-after punctuation passes followed by the strip -/

theorem norm_fixed {y : List Char} (h : TNorm y) :
    pstrip (spaceAfterPunct (remWsPunct y)) = y := by
  induction h with
  | nil => rfl
  | punct_last p hp =>
    have hpw := pyWs_false_of_punct hp
    have h1 : remWsPunct [p] = [p] := by rw [remWsPunct_cons_nonws [] hpw]; rfl
    rw [h1, spaceAfterPunct_cons_punct [] hp]
    show pstrip [p, ' '] = [p]
    rw [pstrip_cons_of_nonws _ hpw, rstrip_cons]
    have h2 : rstrip [' '] = [] := by decide
    simp [h2, hpw]
  | punct_sp p c cs hp hc hn ih =>
    have hpw := pyWs_false_of_punct hp
    obtain ⟨t, ht⟩ := sap_rwp_head cs hc
    have hM : rstrip (spaceAfterPunct (remWsPunct (c :: cs))) = c :: cs := by
      rw [ht]
      rw [ht, pstrip_cons_of_nonws _ hc] at ih
      exact ih
    have hMne : rstrip (spaceAfterPunct (remWsPunct (c :: cs))) ≠ [] := by
      rw [hM]; simp
    have key : spaceAfterPunct (remWsPunct (p :: ' ' :: c :: cs)) =
        p :: ' ' :: spaceAfterPunct (remWsPunct (c :: cs)) := by
      rw [remWsPunct_cons_nonws _ hpw, remWsPunct_ws_cons cs (by decide) hc]
      by_cases hcp : isPunct3 c
      · rw [if_pos hcp, spaceAfterPunct_cons_punct _ hp,
          sapAux_true_of_head_nonws
            (show pyWs ((c :: remWsPunct cs).headD 'x') = false by simpa using hc),
          remWsPunct_cons_nonws cs hc]
        rfl
      · rw [if_neg hcp, spaceAfterPunct_cons_punct _ hp, sapAux_true_sp,
          sapAux_true_of_head_nonws
            (show pyWs ((c :: remWsPunct cs).headD 'x') = false by simpa using hc),
          remWsPunct_cons_nonws cs hc]
        rfl
    rw [key, pstrip_cons_of_nonws _ hpw,
      rstrip_cons_of_ne_nil (by rw [rstrip_cons_of_ne_nil hMne]; simp),
      rstrip_cons_of_ne_nil hMne, hM]
  | plain_last c hc =>
    have hcw : pyWs c = false := by
      simp only [plainC, Bool.and_eq_true, Bool.not_eq_eq_eq_not, Bool.not_true] at hc
      exact hc.1
    have hcp : isPunct3 c = false := by
      simp only [plainC, Bool.and_eq_true, Bool.not_eq_eq_eq_not, Bool.not_true] at hc
      exact hc.2
    have h1 : remWsPunct [c] = [c] := by rw [remWsPunct_cons_nonws [] hcw]; rfl
    rw [h1, spaceAfterPunct_cons_nonpunct [] hcp, spaceAfterPunct_nil,
      pstrip_cons_of_nonws _ hcw, rstrip_cons]
    simp [hcw, rstrip_nil]
  | plain_cons c d ds hc hd hn ih =>
    have hcw : pyWs c = false := by
      simp only [plainC, Bool.and_eq_true, Bool.not_eq_eq_eq_not, Bool.not_true] at hc
      exact hc.1
    have hcp : isPunct3 c = false := by
      simp only [plainC, Bool.and_eq_true, Bool.not_eq_eq_eq_not, Bool.not_true] at hc
      exact hc.2
    obtain ⟨t, ht⟩ := sap_rwp_head ds hd
    have hM : rstrip (spaceAfterPunct (remWsPunct (d :: ds))) = d :: ds := by
      rw [ht]
      rw [ht, pstrip_cons_of_nonws _ hd] at ih
      exact ih
    have hMne : rstrip (spaceAfterPunct (remWsPunct (d :: ds))) ≠ [] := by
      rw [hM]; simp
    rw [remWsPunct_cons_nonws _ hcw, spaceAfterPunct_cons_nonpunct _ hcp,
      pstrip_cons_of_nonws _ hcw, rstrip_cons_of_ne_nil hMne, hM]
  | plain_sp c d ds hc hd hn ih =>
    have hcw : pyWs c = false := by
      simp only [plainC, Bool.and_eq_true, Bool.not_eq_eq_eq_not, Bool.not_true] at hc
      exact hc.1
    have hcp : isPunct3 c = false := by
      simp only [plainC, Bool.and_eq_true, Bool.not_eq_eq_eq_not, Bool.not_true] at hc
      exact hc.2
    have hdw : pyWs d = false := by
      simp only [plainC, Bool.and_eq_true, Bool.not_eq_eq_eq_not, Bool.not_true] at hd
      exact hd.1
    have hdp : isPunct3 d = false := by
      simp only [plainC, Bool.and_eq_true, Bool.not_eq_eq_eq_not, Bool.not_true] at hd
      exact hd.2
    obtain ⟨t, ht⟩ := sap_rwp_head ds hdw
    have hM : rstrip (spaceAfterPunct (remWsPunct (d :: ds))) = d :: ds := by
      rw [ht]
      rw [ht, pstrip_cons_of_nonws _ hdw] at ih
      exact ih
    have hMne : rstrip (spaceAfterPunct (remWsPunct (d :: ds))) ≠ [] := by
      rw [hM]; simp
    have key : spaceAfterPunct (remWsPunct (c :: ' ' :: d :: ds)) =
        c :: ' ' :: spaceAfterPunct (remWsPunct (d :: ds)) := by
      rw [remWsPunct_cons_nonws _ hcw, remWsPunct_ws_cons ds (by decide) hdw, if_neg (by simp [hdp]),
        spaceAfterPunct_cons_nonpunct _ hcp,
        spaceAfterPunct_cons_nonpunct _ (by decide : isPunct3 ' ' = false),
        remWsPunct_cons_nonws ds hdw]
    rw [key, pstrip_cons_of_nonws _ hcw,
      rstrip_cons_of_ne_nil (by rw [rstrip_cons_of_ne_nil hMne]; simp),
      rstrip_cons_of_ne_nil hMne, hM]

/-! ## More helpers for the shape argument -/

theorem wsSp_tail {c : Char} {l : List Char} (h : wsSp (c :: l) = true) : wsSp l = true := by
  rw [wsSp, List.all_cons, Bool.and_eq_true] at h
  exact h.2

theorem ws_eq_space {c : Char} {l : List Char} (h : wsSp (c :: l) = true)
    (hw : pyWs c = true) : c = ' ' := by
  rw [wsSp, List.all_cons, Bool.and_eq_true] at h
  have hx := h.1
  rw [Bool.or_eq_true] at hx
  rcases hx with hx | hx
  · rw [hw] at hx; exact absurd hx (by decide)
  · exact beq_iff_eq.1 hx

theorem wsSp_cons_of {c : Char} {l : List Char} (h1 : pyWs c = false ∨ c = ' ')
    (h2 : wsSp l = true) : wsSp (c :: l) = true := by
  rw [wsSp, List.all_cons, Bool.and_eq_true]
  constructor
  · rcases h1 with h1 | h1
    · simp [h1]
    · simp [h1]
  · exact h2

theorem sap_head (e : Char) (t2 : List Char) :
    ∃ t, spaceAfterPunct (e :: t2) = e :: t := by
  by_cases hp : isPunct3 e
  · exact ⟨_, spaceAfterPunct_cons_punct _ hp⟩
  · exact ⟨_, spaceAfterPunct_cons_nonpunct _ (by simpa using hp)⟩

theorem rstrip_head {e : Char} (l : List Char) (h : pyWs e = false) :
    ∃ ys, rstrip (e :: l) = e :: ys := by
  rw [rstrip_cons]
  by_cases h2 : rstrip l = []
  · exact ⟨[], by simp [h2, h]⟩
  · exact ⟨rstrip l, by simp [h2]⟩

theorem pstrip_sp_cons {s : Char} (l : List Char) (h : pyWs s = true) :
    pstrip (s :: l) = pstrip l := by
  simp [pstrip, lstrip, List.dropWhile_cons, h]

/-! ## The whitespace-before-punctuation pass keeps the collapsed shape
and establishes that no whitespace precedes a mark -/

theorem rwp_shape (n : Nat) : ∀ (z : List Char), z.length ≤ n → wsSp z = true →
    noDouble z = true →
    wsSp (remWsPunct z) = true ∧ noDouble (remWsPunct z) = true ∧
      noWsPunct (remWsPunct z) = true := by
  induction n with
  | zero =>
    intro z hlen _ _
    have hz : z = [] := List.eq_nil_of_length_eq_zero (Nat.le_zero.1 hlen)
    subst hz
    exact ⟨rfl, rfl, rfl⟩
  | succ m ih =>
    intro z hlen h1 h2
    rcases z with _ | ⟨c, cs⟩
    · exact ⟨rfl, rfl, rfl⟩
    by_cases hw : pyWs c
    · have hc : c = ' ' := ws_eq_space h1 hw
      rcases cs with _ | ⟨d, t⟩
      · rw [remWsPunct_ws_single hw]
        refine ⟨h1, rfl, rfl⟩
      · have hd : pyWs d = false := by
          rw [noDouble_cons, Bool.and_eq_true] at h2
          have := h2.1
          rw [hw] at this
          simpa using this
        have ht1 : wsSp t = true := wsSp_tail (wsSp_tail h1)
        have ht2 : noDouble t = true := noDouble_tail (noDouble_tail h2)
        have htl : t.length ≤ m := by
          simp only [List.length_cons] at hlen
          omega
        obtain ⟨ihw, ihd, ihp⟩ := ih t htl ht1 ht2
        rw [remWsPunct_ws_cons t hw hd]
        by_cases hdp : isPunct3 d
        · rw [if_pos hdp]
          refine ⟨wsSp_cons_of (Or.inl hd) ihw, ?_, ?_⟩
          · rw [noDouble_cons, Bool.and_eq_true]
            exact ⟨by simp [hd], ihd⟩
          · rw [noWsPunct_cons, Bool.and_eq_true]
            exact ⟨by simp [hd], ihp⟩
        · rw [if_neg hdp]
          have hdp' : isPunct3 d = false := by simpa using hdp
          refine ⟨?_, ?_, ?_⟩
          · exact wsSp_cons_of (Or.inr hc) (wsSp_cons_of (Or.inl hd) ihw)
          · rw [noDouble_cons, Bool.and_eq_true]
            refine ⟨by simp [hd], ?_⟩
            rw [noDouble_cons, Bool.and_eq_true]
            exact ⟨by simp [hd], ihd⟩
          · rw [noWsPunct_cons, Bool.and_eq_true]
            refine ⟨by simp [hdp'], ?_⟩
            rw [noWsPunct_cons, Bool.and_eq_true]
            exact ⟨by simp [hd], ihp⟩
    · have hw' : pyWs c = false := by simpa using hw
      have hcl : cs.length ≤ m := by
        simp only [List.length_cons] at hlen
        omega
      obtain ⟨ihw, ihd, ihp⟩ := ih cs hcl (wsSp_tail h1) (noDouble_tail h2)
      rw [remWsPunct_cons_nonws cs hw']
      refine ⟨wsSp_cons_of (Or.inl hw') ihw, ?_, ?_⟩
      · rw [noDouble_cons, Bool.and_eq_true]
        exact ⟨by simp [hw'], ihd⟩
      · rw [noWsPunct_cons, Bool.and_eq_true]
        exact ⟨by simp [hw'], ihp⟩

theorem noDouble_pair {a b : Char} {t : List Char} (h : noDouble (a :: b :: t) = true)
    (ha : pyWs a = true) : pyWs b = false := by
  simp only [noDouble, Bool.and_eq_true] at h
  have := h.1
  simpa [ha] using this

theorem noWsPunct_pair {a b : Char} {t : List Char} (h : noWsPunct (a :: b :: t) = true)
    (ha : pyWs a = true) : isPunct3 b = false := by
  simp only [noWsPunct, Bool.and_eq_true] at h
  have := h.1
  simpa [ha] using this

/-! ## The one-space-after-punctuation pass followed by the strip
produces the normal form -/

theorem sap_norm (n : Nat) : ∀ (w : List Char), w.length ≤ n → wsSp w = true →
    noDouble w = true → noWsPunct w = true → TNorm (pstrip (spaceAfterPunct w)) := by
  induction n with
  | zero =>
    intro w hlen _ _ _
    have hz : w = [] := List.eq_nil_of_length_eq_zero (Nat.le_zero.1 hlen)
    subst hz
    exact TNorm.nil
  | succ m ih =>
    intro w hlen h1 h2 h3
    rcases w with _ | ⟨c, rest⟩
    · exact TNorm.nil
    by_cases hw : pyWs c
    · have hc : c = ' ' := ws_eq_space h1 hw
      subst hc
      rw [spaceAfterPunct_cons_nonpunct _ (by decide : isPunct3 ' ' = false),
        pstrip_sp_cons _ (by decide)]
      refine ih rest ?_ (wsSp_tail h1) (noDouble_tail h2) (noWsPunct_tail h3)
      simp only [List.length_cons] at hlen
      omega
    have hw' : pyWs c = false := by simpa using hw
    by_cases hp : isPunct3 c
    · rw [spaceAfterPunct_cons_punct _ hp]
      rcases rest with _ | ⟨s, rest2⟩
      · show TNorm (pstrip [c, ' '])
        have h9 : rstrip [' '] = [] := by decide
        rw [pstrip_cons_of_nonws _ hw', rstrip_cons]
        simp only [h9, if_true, hw', Bool.false_eq_true, if_false]
        exact TNorm.punct_last c hp
      by_cases hsw : pyWs s
      · have hs : s = ' ' := ws_eq_space (wsSp_tail h1) hsw
        subst hs
        rw [sapAux_true_sp]
        rcases rest2 with _ | ⟨e, t2⟩
        · show TNorm (pstrip [c, ' '])
          have h9 : rstrip [' '] = [] := by decide
          rw [pstrip_cons_of_nonws _ hw', rstrip_cons]
          simp only [h9, if_true, hw', Bool.false_eq_true, if_false]
          exact TNorm.punct_last c hp
        · have he : pyWs e = false := noDouble_pair (noDouble_tail h2) (by decide)
          rw [sapAux_true_of_head_nonws (show pyWs ((e :: t2).headD 'x') = false by simpa using he)]
          obtain ⟨tl, htl⟩ := sap_head e t2
          have hihn : TNorm (pstrip (spaceAfterPunct (e :: t2))) := by
            refine ih (e :: t2) ?_ (wsSp_tail (wsSp_tail h1)) (noDouble_tail (noDouble_tail h2))
              (noWsPunct_tail (noWsPunct_tail h3))
            simp only [List.length_cons] at hlen ⊢
            omega
          rw [htl] at hihn
          rw [pstrip_cons_of_nonws _ he] at hihn
          obtain ⟨ys, hys⟩ := rstrip_head tl he
          have hne : rstrip (e :: tl) ≠ [] := by rw [hys]; simp
          show TNorm (pstrip (c :: ' ' :: spaceAfterPunctAux false (e :: t2)))
          rw [show spaceAfterPunctAux false (e :: t2) = spaceAfterPunct (e :: t2) from rfl, htl,
            pstrip_cons_of_nonws _ hw',
            rstrip_cons_of_ne_nil (by rw [rstrip_cons_of_ne_nil hne]; simp),
            rstrip_cons_of_ne_nil hne, hys]
          rw [hys] at hihn
          exact TNorm.punct_sp c e ys hp he hihn
      · have he : pyWs s = false := by simpa using hsw
        rw [sapAux_true_of_head_nonws (show pyWs ((s :: rest2).headD 'x') = false by simpa using he)]
        obtain ⟨tl, htl⟩ := sap_head s rest2
        have hihn : TNorm (pstrip (spaceAfterPunct (s :: rest2))) := by
          refine ih (s :: rest2) ?_ (wsSp_tail h1) (noDouble_tail h2) (noWsPunct_tail h3)
          simp only [List.length_cons] at hlen ⊢
          omega
        rw [htl, pstrip_cons_of_nonws _ he] at hihn
        obtain ⟨ys, hys⟩ := rstrip_head tl he
        have hne : rstrip (s :: tl) ≠ [] := by rw [hys]; simp
        show TNorm (pstrip (c :: ' ' :: spaceAfterPunctAux false (s :: rest2)))
        rw [show spaceAfterPunctAux false (s :: rest2) = spaceAfterPunct (s :: rest2) from rfl, htl,
          pstrip_cons_of_nonws _ hw',
          rstrip_cons_of_ne_nil (by rw [rstrip_cons_of_ne_nil hne]; simp),
          rstrip_cons_of_ne_nil hne, hys]
        rw [hys] at hihn
        exact TNorm.punct_sp c s ys hp he hihn
    · have hp' : isPunct3 c = false := by simpa using hp
      rw [spaceAfterPunct_cons_nonpunct _ hp']
      rcases rest with _ | ⟨s, rest2⟩
      · show TNorm (pstrip [c])
        rw [pstrip_cons_of_nonws _ hw', rstrip_cons]
        simp only [rstrip_nil, if_true, hw', Bool.false_eq_true, if_false]
        exact TNorm.plain_last c (by simp [plainC, hw', hp'])
      by_cases hsw : pyWs s
      · have hs : s = ' ' := ws_eq_space (wsSp_tail h1) hsw
        subst hs
        rw [spaceAfterPunct_cons_nonpunct _ (by decide : isPunct3 ' ' = false)]
        rcases rest2 with _ | ⟨d, t3⟩
        · show TNorm (pstrip [c, ' '])
          have h9 : rstrip [' '] = [] := by decide
          rw [pstrip_cons_of_nonws _ hw', rstrip_cons]
          simp only [h9, if_true, hw', Bool.false_eq_true, if_false]
          exact TNorm.plain_last c (by simp [plainC, hw', hp'])
        · have hd : pyWs d = false := noDouble_pair (noDouble_tail h2) (by decide)
          have hdp : isPunct3 d = false := noWsPunct_pair (noWsPunct_tail h3) (by decide)
          obtain ⟨tl, htl⟩ := sap_head d t3
          have hihn : TNorm (pstrip (spaceAfterPunct (d :: t3))) := by
            refine ih (d :: t3) ?_ (wsSp_tail (wsSp_tail h1)) (noDouble_tail (noDouble_tail h2))
              (noWsPunct_tail (noWsPunct_tail h3))
            simp only [List.length_cons] at hlen ⊢
            omega
          rw [htl, pstrip_cons_of_nonws _ hd] at hihn
          obtain ⟨ys, hys⟩ := rstrip_head tl hd
          have hne : rstrip (d :: tl) ≠ [] := by rw [hys]; simp
          rw [htl, pstrip_cons_of_nonws _ hw',
            rstrip_cons_of_ne_nil (by rw [rstrip_cons_of_ne_nil hne]; simp),
            rstrip_cons_of_ne_nil hne, hys]
          rw [hys] at hihn
          exact TNorm.plain_sp c d ys (by simp [plainC, hw', hp']) (by simp [plainC, hd, hdp]) hihn
      · have hd : pyWs s = false := by simpa using hsw
        obtain ⟨tl, htl⟩ := sap_head s rest2
        have hihn : TNorm (pstrip (spaceAfterPunct (s :: rest2))) := by
          refine ih (s :: rest2) ?_ (wsSp_tail h1) (noDouble_tail h2) (noWsPunct_tail h3)
          simp only [List.length_cons] at hlen ⊢
          omega
        rw [htl, pstrip_cons_of_nonws _ hd] at hihn
        obtain ⟨ys, hys⟩ := rstrip_head tl hd
        have hne : rstrip (s :: tl) ≠ [] := by rw [hys]; simp
        rw [htl, pstrip_cons_of_nonws _ hw', rstrip_cons_of_ne_nil hne, hys]
        rw [hys] at hihn
        exact TNorm.plain_cons c s ys (by simp [plainC, hw', hp']) hd hihn

/-! ## Facts read off the normal form -/

theorem plainC_ws {c : Char} (h : plainC c = true) : pyWs c = false := by
  simp only [plainC, Bool.and_eq_true, Bool.not_eq_eq_eq_not, Bool.not_true] at h
  exact h.1

theorem plainC_punct {c : Char} (h : plainC c = true) : isPunct3 c = false := by
  simp only [plainC, Bool.and_eq_true, Bool.not_eq_eq_eq_not, Bool.not_true] at h
  exact h.2

theorem tnorm_shape {y : List Char} (h : TNorm y) : wsSp y = true ∧ noDouble y = true := by
  induction h with
  | nil => exact ⟨rfl, rfl⟩
  | punct_last p hp =>
    exact ⟨wsSp_cons_of (Or.inl (pyWs_false_of_punct hp)) rfl, rfl⟩
  | punct_sp p c cs hp hc _ ih =>
    obtain ⟨ihw, ihd⟩ := ih
    refine ⟨?_, ?_⟩
    · exact wsSp_cons_of (Or.inl (pyWs_false_of_punct hp)) (wsSp_cons_of (Or.inr rfl) ihw)
    · rw [noDouble_cons, Bool.and_eq_true]
      refine ⟨by simp [pyWs_false_of_punct hp], ?_⟩
      rw [noDouble_cons, Bool.and_eq_true]
      exact ⟨by simp [hc], ihd⟩
  | plain_last c hc =>
    exact ⟨wsSp_cons_of (Or.inl (plainC_ws hc)) rfl, rfl⟩
  | plain_cons c d ds hc hd _ ih =>
    obtain ⟨ihw, ihd⟩ := ih
    refine ⟨wsSp_cons_of (Or.inl (plainC_ws hc)) ihw, ?_⟩
    rw [noDouble_cons, Bool.and_eq_true]
    exact ⟨by simp [plainC_ws hc], ihd⟩
  | plain_sp c d ds hc hd _ ih =>
    obtain ⟨ihw, ihd⟩ := ih
    refine ⟨?_, ?_⟩
    · exact wsSp_cons_of (Or.inl (plainC_ws hc)) (wsSp_cons_of (Or.inr rfl) ihw)
    · rw [noDouble_cons, Bool.and_eq_true]
      refine ⟨by simp [plainC_ws hc], ?_⟩
      rw [noDouble_cons, Bool.and_eq_true]
      exact ⟨by simp [plainC_ws hd], ihd⟩

theorem tnorm_getLast {y : List Char} (h : TNorm y) :
    ∀ g, y.getLast? = some g → pyWs g = false := by
  induction h with
  | nil => intro g hg; simp at hg
  | punct_last p hp =>
    intro g hg
    simp only [List.getLast?_singleton, Option.some.injEq] at hg
    subst hg
    exact pyWs_false_of_punct hp
  | punct_sp p c cs hp hc _ ih =>
    intro g hg
    rw [List.getLast?_cons_cons, List.getLast?_cons_cons] at hg
    exact ih g hg
  | plain_last c hc =>
    intro g hg
    simp only [List.getLast?_singleton, Option.some.injEq] at hg
    subst hg
    exact plainC_ws hc
  | plain_cons c d ds hc hd _ ih =>
    intro g hg
    rw [List.getLast?_cons_cons] at hg
    exact ih g hg
  | plain_sp c d ds hc hd _ ih =>
    intro g hg
    rw [List.getLast?_cons_cons, List.getLast?_cons_cons] at hg
    exact ih g hg

/-! ## When the digit-line removal is the identity -/

theorem dlMatch_eq_none_of {l : List Char} (hnl : noNl l = true)
    (h : (l.takeWhile isDig).isEmpty = true ∨
      ((l.drop (l.takeWhile isDig).length).all pyWs) = false) :
    dlMatch l = none := by
  unfold dlMatch
  by_cases hds : (l.takeWhile isDig).isEmpty
  · simp [hds]
  · rcases h with h | h
    · exact absurd h hds
    simp only [hds, Bool.false_eq_true, if_false]
    have hf : (List.range (((l.drop (l.takeWhile isDig).length).takeWhile pyWs).length + 1)).reverse.find?
        (fun k => ((l.drop (l.takeWhile isDig).length).drop k).isEmpty ||
          (((l.drop (l.takeWhile isDig).length).drop k).headD 'x' == '\n')) = none := by
      rw [List.find?_eq_none]
      intro k hk
      rw [List.mem_reverse, List.mem_range] at hk
      simp only [Bool.or_eq_true, not_or]
      set rest := l.drop (l.takeWhile isDig).length with hr
      constructor
      · intro hemp
        have hlen : rest.length ≤ k := by
          rw [List.isEmpty_iff] at hemp
          have := congrArg List.length hemp
          simp only [List.length_drop, List.length_nil] at this
          omega
        have hwlen : (rest.takeWhile pyWs).length ≤ rest.length :=
          (List.takeWhile_prefix pyWs).sublist.length_le
        have heq : (rest.takeWhile pyWs).length = rest.length := by omega
        have hself : rest.takeWhile pyWs = rest :=
          (List.takeWhile_prefix pyWs).eq_of_length heq
        have hall : rest.all pyWs = true := by
          rw [List.all_eq_true]
          exact List.takeWhile_eq_self_iff.1 hself
        rw [h] at hall
        exact absurd hall (by simp)
      · intro hhead
        rcases he : rest.drop k with _ | ⟨y, ys⟩
        · rw [he] at hhead; simp at hhead
        · rw [he] at hhead
          simp only [List.headD_cons, beq_iff_eq] at hhead
          subst hhead
          have hy : '\n' ∈ l := by
            have h1 : '\n' ∈ rest.drop k := by rw [he]; exact List.mem_cons_self _ _
            have h2 : '\n' ∈ rest := (List.drop_sublist _ _).mem h1
            exact (List.drop_sublist _ _).mem h2
          have := List.all_eq_true.1 hnl '\n' hy
          simp at this
    rw [hf]

theorem rdl_id_of_none {l : List Char} (hnl : noNl l = true) (hm : dlMatch l = none) :
    removeDigitLines l = l := by
  cases l with
  | nil => rfl
  | cons c cs =>
    show rdlAux (c :: cs).length true (c :: cs) = c :: cs
    rw [List.length_cons]
    simp only [rdlAux, if_true, hm]
    rw [noNl, List.all_cons, Bool.and_eq_true] at hnl
    have hc : (c == '\n') = false := by simpa using hnl.1
    rw [hc, rdlAux_false_id hnl.2]

theorem rdl_id_of_norm {y : List Char} (hn : TNorm y)
    (h : ¬(y ≠ [] ∧ y.all isDig = true)) : removeDigitLines y = y := by
  obtain ⟨hws, _⟩ := tnorm_shape hn
  have hnl := noNl_of_wsSp hws
  refine rdl_id_of_none hnl (dlMatch_eq_none_of hnl ?_)
  by_cases hds : (y.takeWhile isDig).isEmpty
  · exact Or.inl hds
  right
  by_contra hall
  have hall' : (y.drop (y.takeWhile isDig).length).all pyWs = true := by
    simpa using hall
  have hsplit : y.takeWhile isDig ++ y.drop (y.takeWhile isDig).length = y := by
    have htake : y.take (y.takeWhile isDig).length = y.takeWhile isDig :=
      (List.prefix_iff_eq_take.1 (List.takeWhile_prefix isDig)).symm
    have hsp := List.take_append_drop (y.takeWhile isDig).length y
    rw [htake] at hsp
    exact hsp
  rcases hrest : y.drop (y.takeWhile isDig).length with _ | ⟨r, rs⟩
  · have hy : y = y.takeWhile isDig := by
      conv_lhs => rw [← hsplit]
      rw [hrest, List.append_nil]
    apply h
    constructor
    · intro hynil
      rw [hynil] at hds
      exact hds (by simp)
    · rw [List.all_eq_true]
      intro x hx
      have : x ∈ y.takeWhile isDig := by rw [← hy]; exact hx
      exact List.mem_takeWhile_imp this
  · have hgl : y.getLast? = (r :: rs).getLast? := by
      rw [← hsplit, hrest]
      exact List.getLast?_append_of_ne_nil _ (by simp)
    have hex : (r :: rs).getLast? = some ((r :: rs).getLast (by simp)) :=
      List.getLast?_eq_getLast_of_ne_nil (by simp)
    have hmem : (r :: rs).getLast (by simp) ∈ (r :: rs) := List.getLast_mem _
    have hwsg : pyWs ((r :: rs).getLast (by simp)) = true := by
      have := List.all_eq_true.1 (by rw [hrest] at hall'; exact hall') _ hmem
      exact this
    have := tnorm_getLast hn _ (by rw [hgl]; exact hex)
    rw [this] at hwsg
    exact absurd hwsg (by simp)

/-! ## Every clean_text output has the normal shape -/

theorem clean_text_norm (x : List Char) : TNorm (clean_text x) := by
  unfold clean_text
  have h1 := wsSp_collapseWs x
  have h2 := noDouble_collapseWs x
  have hnl := noNl_of_wsSp h1
  rw [collapseNl_id hnl]
  rcases removeDigitLines_dichotomy hnl with hd | hd
  · rw [hd]
    obtain ⟨ha, hb, hc⟩ := rwp_shape (collapseWs x).length (collapseWs x) (Nat.le_refl _) h1 h2
    exact sap_norm (remWsPunct (collapseWs x)).length _ (Nat.le_refl _) ha hb hc
  · rw [hd]
    exact TNorm.nil

/-! ## Claim C1 -/

/-- Claim C1, counterexample.  The claim asserts that on
"Dr. Smith went home. He was tired." the classifier returns true at
the offset of the period after "home" (offset 19); the code returns
false there, because the 30-character window preceding offset 19
still contains the abbreviation "Dr.", and the abbreviation check
rejects the boundary. -/
theorem claim_C1_counterexample :
    is_sentence_boundary "Dr. Smith went home. He was tired.".toList 19 = false := by
  decide

/-- Claim C1, amended.  On "Dr. Smith went home. He was tired.",
is_sentence_boundary returns false at the offset of the period after
"Dr" (offset 2, abbreviation exception), and also returns false at the
offset of the period after "home" (offset 19), because the abbreviation
"Dr." lies within the 30 characters preceding that offset as well. -/
theorem claim_C1 :
    is_sentence_boundary "Dr. Smith went home. He was tired.".toList 2 = false ∧
      is_sentence_boundary "Dr. Smith went home. He was tired.".toList 19 = false := by
  constructor <;> decide

/-! ## Claim C3 -/

/-- Claim C3, counterexample.  The input "a\n\nb" contains the
two-newline paragraph marker, yet clean_text collapses it to a single
space: the output is "a b" and keeps no newline at all. -/
theorem claim_C3_counterexample :
    containsSub "\n\n".toList "a\n\nb".toList = true ∧
      clean_text "a\n\nb".toList = "a b".toList := by
  constructor <;> decide

/-- Claim C3, amended.  Normalization does not preserve paragraph
breaks: the first step of clean_text collapses every whitespace run,
the two-newline paragraph marker included, to a single space, and no
newline character ever survives in a clean_text output. -/
theorem claim_C3 (text : List Char) : noNl (clean_text text) = true :=
  noNl_of_wsSp (tnorm_shape (clean_text_norm text)).1

/-! ## Claim C6 -/

/-- Claim C6, counterexample.  Normalization is not idempotent: on
" 12 " the first pass only trims (" 12 " is not a bare digit line
because of the leading space, so the digit-line removal does not fire),
giving "12"; the second pass sees a bare digit line and erases it. -/
theorem claim_C6_counterexample :
    clean_text " 12 ".toList = "12".toList ∧
      clean_text (clean_text " 12 ".toList) = [] := by
  constructor <;> decide

/-- Claim C6, amended.  Normalization is idempotent on every input
whose normalized form is not a non-empty string consisting solely of
digits; on those inputs the second pass erases the digit line, as the
counterexample shows. -/
theorem claim_C6 (x : List Char)
    (h : ¬(clean_text x ≠ [] ∧ (clean_text x).all isDig = true)) :
    clean_text (clean_text x) = clean_text x := by
  have hn := clean_text_norm x
  obtain ⟨hws, hnd⟩ := tnorm_shape hn
  have hnl := noNl_of_wsSp hws
  show pstrip (spaceAfterPunct (remWsPunct (removeDigitLines (collapseNl
    (collapseWs (clean_text x)))))) = clean_text x
  rw [collapseWs_id hws hnd, collapseNl_id hnl, rdl_id_of_norm hn h, norm_fixed hn]

/-- Claim C6, witness for the amended theorem at a concrete input. -/
theorem claim_C6_witness :
    ¬(clean_text "Hello there. How are you".toList ≠ [] ∧
        (clean_text "Hello there. How are you".toList).all isDig = true) ∧
      clean_text (clean_text "Hello there. How are you".toList) =
        clean_text "Hello there. How are you".toList :=
  ⟨by decide, claim_C6 "Hello there. How are you".toList (by decide)⟩

/-! ## Claim C9 -/

/-- Claim C9, counterexample.  clean_query does not apply the
digit-line removal that clean_text applies: on the query "12" the two
functions disagree. -/
theorem claim_C9_counterexample :
    clean_query "12".toList = "12".toList ∧ clean_text "12".toList = [] := by
  constructor <;> decide

/-- Claim C9, amended.  clean_query applies the whitespace collapse,
punctuation spacing and trim of clean_text but omits its newline
collapse and digit-line removal; the two agree exactly on the queries
where the digit-line removal is the identity (the newline collapse is
always the identity after the whitespace collapse). -/
theorem claim_C9 (q : List Char)
    (h : removeDigitLines (collapseNl (collapseWs q)) = collapseNl (collapseWs q)) :
    clean_query q = clean_text q := by
  show pstrip (spaceAfterPunct (remWsPunct (collapseWs q))) =
    pstrip (spaceAfterPunct (remWsPunct (removeDigitLines (collapseNl (collapseWs q)))))
  rw [h, collapseNl_id (noNl_of_wsSp (wsSp_collapseWs q))]

/-- Claim C9, witness for the amended theorem at a concrete query. -/
theorem claim_C9_witness :
    removeDigitLines (collapseNl (collapseWs "hi there".toList)) =
        collapseNl (collapseWs "hi there".toList) ∧
      clean_query "hi there".toList = clean_text "hi there".toList :=
  ⟨by decide, claim_C9 "hi there".toList (by decide)⟩

/-! ## Claim C7 -/

theorem fqr_foldl {α : Type} : ∀ (rs acc : List (α × ℚ)),
    rs.foldl
        (fun acc m =>
          let distance := 1 - m.2
          if distance ≤ 1 - similarity_threshold then acc ++ [m] else acc)
        acc
      = acc ++ rs.filter (fun m => decide (1 - m.2 ≤ 1 - similarity_threshold)) := by
  intro rs
  induction rs with
  | nil => intro acc; simp
  | cons m t ih =>
    intro acc
    simp only [List.foldl_cons, List.filter_cons]
    by_cases hm : 1 - m.2 ≤ 1 - similarity_threshold
    · rw [if_pos hm, ih]
      simp [hm]
    · rw [if_neg hm, ih]
      simp [hm]

/-- Claim C7.  The quality filter keeps a scored match exactly when
the distance 1 - score is at most 1 - threshold, preserving the order
of the input (it equals List.filter with that predicate); and on the
scenario list with scores 0.9 and 0.3 at threshold 0.45 only the first
document survives. -/
theorem claim_C7 :
    (∀ (α : Type) (rs : List (α × ℚ)),
        filter_quality_results rs =
          rs.filter (fun m => decide (1 - m.2 ≤ 1 - similarity_threshold))) ∧
      filter_quality_results [((1 : ℕ), (0.9 : ℚ)), (2, 0.3)] = [(1, 0.9)] := by
  constructor
  · intro α rs
    rw [filter_quality_results, fqr_foldl]
    simp
  · rw [filter_quality_results, fqr_foldl, List.nil_append]
    have h1 : ((1 : ℚ) - 0.9 ≤ 1 - similarity_threshold) := by
      norm_num [similarity_threshold]
    have h2 : ¬((1 : ℚ) - 0.3 ≤ 1 - similarity_threshold) := by
      norm_num [similarity_threshold]
    simp only [List.filter_cons, List.filter_nil]
    rw [decide_eq_true h1, decide_eq_false h2]
    simp

/-! ## Claim C8 -/

/-- Claim C8, counterexample.  A failing similarity search is reported
as the ordinary empty result list, indistinguishable from a successful
search with zero hits, and a failing generation call is returned as an
ordinary answer string: both errors are swallowed, not propagated as
typed failures. -/
theorem claim_C8_counterexample :
    search_documents (Except.error "network down" : Except String (List (ℕ × ℚ))) = [] ∧
      search_documents (Except.ok ([] : List (ℕ × ℚ))) = [] ∧
      get_ai_response (Except.error "network down") =
        "Error getting AI response: network down" :=
  ⟨rfl, rfl, rfl⟩

/-- Claim C8, amended.  Both external-call wrappers catch every error:
search_documents maps any failure of the similarity search to the
empty result list, and get_ai_response maps any failure of the
generation call to the string "Error getting AI response: " followed
by the error text, returned as an ordinary answer. -/
theorem claim_C8 :
    ∀ (α : Type) (e : String),
      search_documents (Except.error e : Except String (List (α × ℚ))) = [] ∧
        get_ai_response (Except.error e) = "Error getting AI response: " ++ e :=
  fun _ _ => ⟨rfl, rfl⟩

/-! ## Claim C2 -/

theorem fsbStep_fst (text : List Char) (tgt : Nat) (acc : Nat × Option ℚ) (i : Nat) :
    (fsbStep text tgt acc i).1 = i ∨ (fsbStep text tgt acc i).1 = acc.1 := by
  unfold fsbStep
  split
  · rcases acc with ⟨b, _ | s⟩
    · left; rfl
    · dsimp only
      repeat' split
      all_goals first | (left; rfl) | (right; rfl)
  · right; rfl

theorem fsb_fold_le (text : List Char) (tgt : Nat) :
    ∀ (l : List Nat) (acc : Nat × Option ℚ), acc.1 ≤ text.length →
      (∀ i ∈ l, i < text.length) →
      (l.foldl (fsbStep text tgt) acc).1 ≤ text.length := by
  intro l
  induction l with
  | nil => intro acc h _; exact h
  | cons i t ih =>
    intro acc h hm
    rw [List.foldl_cons]
    refine ih _ ?_ (fun j hj => hm j (List.mem_cons_of_mem _ hj))
    rcases fsbStep_fst text tgt acc i with hf | hf
    · rw [hf]
      exact Nat.le_of_lt (hm i (List.mem_cons_self _ _))
    · rw [hf]
      exact h

theorem mem_fsbIdxs_lt {text : List Char} {tgt i : Nat} (h : i ∈ fsbIdxs text tgt) :
    i < text.length := by
  rw [fsbIdxs, List.mem_range'_1] at h
  omega

/-- Claim C2, counterexample.  The claim quantifies over every target.
At target 10 on the empty text the search window is empty, every pass
leaves the break at the target, and the function returns 10, which is
not an offset of the empty text: the range guarantee fails for targets
beyond the end of the text. -/
theorem claim_C2_counterexample :
    find_smart_break ([] : List Char) 10 = 10 ∧
      ([] : List Char).length < find_smart_break ([] : List Char) 10 := by
  constructor <;> decide

set_option maxRecDepth 4000 in
/-- Claim C2, amended.  For every text and every target that is an
offset of the text (at most its length), find_smart_break returns an
offset between 0 and the length of the text; and it is deterministic,
two evaluations on identical input being the same value of a pure
function.  For targets beyond the length the range guarantee can
fail, as the counterexample on the empty text shows. -/
theorem claim_C2 (text : List Char) (target : Nat) (h : target ≤ text.length) :
    find_smart_break text target ≤ text.length ∧
      find_smart_break text target = find_smart_break text target := by
  refine ⟨?_, rfl⟩
  unfold find_smart_break
  have h1 : ((fsbIdxs text target).foldl (fsbStep text target) (target, none)).1 ≤
      text.length :=
    fsb_fold_le text target _ _ h (fun i hi => mem_fsbIdxs_lt hi)
  dsimp only
  repeat' split
  all_goals first
    | exact h1
    | exact Nat.le_of_lt (mem_fsbIdxs_lt (List.mem_of_find?_eq_some (by assumption)))

/-- Claim C2, witness for the amended theorem at a concrete input. -/
theorem claim_C2_witness :
    (1 : Nat) ≤ "ab".toList.length ∧
      find_smart_break "ab".toList 1 ≤ "ab".toList.length ∧
      find_smart_break "ab".toList 1 = find_smart_break "ab".toList 1 :=
  ⟨by decide, (claim_C2 "ab".toList 1 (by decide)).1, (claim_C2 "ab".toList 1 (by decide)).2⟩

/-! ## Claim C4 -/

theorem splitLoopF_isSome (cfg : Cfg) (text : List Char) :
    ∀ (fuel start : Nat) (acc : List (List Char)), text.length - start ≤ fuel →
      (splitLoopF cfg text fuel start acc).isSome = true := by
  intro fuel
  induction fuel with
  | zero =>
    intro start acc h
    have hs : ¬ start < text.length := by omega
    simp [splitLoopF, hs]
  | succ f ih =>
    intro start acc h
    by_cases hs : start < text.length
    · rw [splitLoopF, if_pos hs]
      by_cases he : text.length ≤ start + cfg.chunk_size
      · rw [if_pos he]
        rfl
      · rw [if_neg he]
        apply ih
        have h2 : start + 1 ≤ nextStart cfg start
            (find_smart_break text (start + cfg.chunk_size)) :=
          Nat.le_max_left _ _
        omega
    · rw [splitLoopF, if_neg hs]
      rfl

set_option linter.unusedVariables false in
/-- Claim C4.  For every text and every parameter choice with
chunk_size greater than overlap, the split loop terminates: the cursor
update nextStart strictly increases the cursor on every iteration (the
`start + 1` arm of the max guarantees this for every break position),
and running the fuel-indexed loop with fuel `length - start` never
exhausts the fuel, so split_text_smart, which runs it with fuel equal
to the text length, computes a result in at most `length` iterations.
The strict increase holds regardless of the hypothesis, which is kept
as the claim states it. -/
theorem claim_C4 (cfg : Cfg) (text : List Char) (h : cfg.chunk_overlap < cfg.chunk_size) :
    (∀ start breakPos, start < nextStart cfg start breakPos) ∧
      ∀ start acc, (splitLoopF cfg text (text.length - start) start acc).isSome = true := by
  constructor
  · intro start breakPos
    exact Nat.lt_of_lt_of_le (Nat.lt_succ_self start) (Nat.le_max_left _ _)
  · intro start acc
    exact splitLoopF_isSome cfg text _ start acc (Nat.le_refl _)

/-- Claim C4, witness at a concrete configuration and text. -/
theorem claim_C4_witness :
    (1 : Nat) < 5 ∧ 0 < nextStart ⟨5, 1, 2, 10⟩ 0 3 ∧
      (splitLoopF ⟨5, 1, 2, 10⟩ "abcdef".toList
        ("abcdef".toList.length - 0) 0 []).isSome = true :=
  ⟨by decide, (claim_C4 ⟨5, 1, 2, 10⟩ "abcdef".toList (by decide)).1 0 3,
    (claim_C4 ⟨5, 1, 2, 10⟩ "abcdef".toList (by decide)).2 0 []⟩

/-! ## Claim C10 -/

theorem dropWhile_head_false {p : Char → Bool} {l : List Char} {c : Char} {t : List Char}
    (h : l.dropWhile p = c :: t) : p c = false := by
  induction l with
  | nil => simp at h
  | cons a as ih =>
    rw [List.dropWhile_cons] at h
    split at h
    · exact ih h
    · next hp =>
      have : a = c := (List.cons.injEq _ _ _ _ ▸ h).1
      subst this
      simpa using hp

theorem rstrip_idem (l : List Char) : rstrip (rstrip l) = rstrip l := by
  unfold rstrip
  rw [List.reverse_reverse]
  rcases hd : l.reverse.dropWhile pyWs with _ | ⟨c, t⟩
  · rfl
  · rw [List.dropWhile_cons, if_neg (by simp [dropWhile_head_false hd])]

theorem pstrip_idem (l : List Char) : pstrip (pstrip l) = pstrip l := by
  rcases hl : lstrip l with _ | ⟨c, t⟩
  · show pstrip (rstrip (lstrip l)) = rstrip (lstrip l)
    rw [hl, rstrip_nil]
    rfl
  · have hc : pyWs c = false := dropWhile_head_false hl
    obtain ⟨ys, hys⟩ := rstrip_head t hc
    show pstrip (rstrip (lstrip l)) = rstrip (lstrip l)
    rw [hl, hys, pstrip, lstrip_cons_of_nonws _ hc, ← hys, rstrip_idem]

theorem splitLoopF_inv (cfg : Cfg) (text : List Char) :
    ∀ (fuel start : Nat) (acc res : List (List Char)),
      (∀ c ∈ acc, c ≠ [] ∧ cfg.min_chunk_size ≤ c.length ∧ pstrip c = c) →
      splitLoopF cfg text fuel start acc = some res →
      ∀ c ∈ res, c ≠ [] ∧ cfg.min_chunk_size ≤ c.length ∧ pstrip c = c := by
  intro fuel
  induction fuel with
  | zero =>
    intro start acc res hacc heq
    by_cases hs : start < text.length
    · simp [splitLoopF, hs] at heq
    · simp only [splitLoopF, hs, if_false, Option.some.injEq] at heq
      subst heq
      exact hacc
  | succ f ih =>
    intro start acc res hacc heq
    by_cases hs : start < text.length
    · rw [splitLoopF, if_pos hs] at heq
      by_cases he : text.length ≤ start + cfg.chunk_size
      · rw [if_pos he] at heq
        simp only [Option.some.injEq] at heq
        subst heq
        by_cases hk : keepChunk cfg (pstrip (text.drop start))
        · rw [if_pos hk]
          intro c hc
          rcases List.mem_append.1 hc with hc1 | hc1
          · exact hacc c hc1
          · rw [List.mem_singleton] at hc1
            subst hc1
            rw [keepChunk, Bool.and_eq_true] at hk
            refine ⟨by simpa [List.isEmpty_iff] using hk.1, by simpa using hk.2, pstrip_idem _⟩
        · rw [if_neg hk]
          exact hacc
      · rw [if_neg he] at heq
        refine ih _ _ res ?_ heq
        by_cases hk : keepChunk cfg
            (pstrip ((text.take (find_smart_break text (start + cfg.chunk_size))).drop start))
        · rw [if_pos hk]
          intro c hc
          rcases List.mem_append.1 hc with hc1 | hc1
          · exact hacc c hc1
          · rw [List.mem_singleton] at hc1
            subst hc1
            rw [keepChunk, Bool.and_eq_true] at hk
            refine ⟨by simpa [List.isEmpty_iff] using hk.1, by simpa using hk.2, pstrip_idem _⟩
        · rw [if_neg hk]
          exact hacc
    · rw [splitLoopF, if_neg hs] at heq
      simp only [Option.some.injEq] at heq
      subst heq
      exact hacc

/-- Claim C10.  Every chunk emitted by split_text_smart is non-empty,
carries no leading or trailing whitespace (it is a fixed point of the
strip), and has length at least min_chunk_size — the final chunk of a
text included, since a sub-minimum trailing remainder is dropped
rather than emitted; and splitting the empty text yields the empty
list. -/
theorem claim_C10 (cfg : Cfg) (text : List Char) :
    (∀ c ∈ split_text_smart cfg text,
        c ≠ [] ∧ cfg.min_chunk_size ≤ c.length ∧ pstrip c = c) ∧
      split_text_smart cfg [] = [] := by
  constructor
  · intro c hc
    unfold split_text_smart at hc
    rcases hres : splitLoopF cfg text text.length 0 [] with _ | res
    · rw [hres] at hc
      simp at hc
    · rw [hres] at hc
      simp only [Option.getD_some] at hc
      exact splitLoopF_inv cfg text _ 0 [] res (by simp) hres c hc
  · rfl

/-- Claim C10, witness at a concrete configuration and text. -/
theorem claim_C10_witness :
    "abcdef".toList ∈ split_text_smart ⟨10, 2, 2, 20⟩ "abcdef".toList ∧
      ("abcdef".toList ≠ [] ∧ (2 : Nat) ≤ "abcdef".toList.length ∧
        pstrip "abcdef".toList = "abcdef".toList) :=
  ⟨by decide, (claim_C10 ⟨10, 2, 2, 20⟩ "abcdef".toList).1 "abcdef".toList (by decide)⟩

/-! ## Claim C5: evaluation on the 2000-character text of letters A -/

theorem getD_replicate (n i : Nat) (a d : Char) :
    (List.replicate n a).getD i d = if i < n then a else d := by
  rw [List.getD_eq_getElem?_getD, List.getElem?_replicate]
  by_cases h : i < n
  · rw [if_pos h, if_pos h]
    rfl
  · rw [if_neg h, if_neg h]
    rfl

theorem seSearch_replicate (k : Nat) : sentenceEndingSearch (List.replicate k 'A') = false := by
  unfold sentenceEndingSearch
  rw [List.any_eq_false]
  intro i _
  simp only [Bool.not_eq_true]
  rw [List.any_eq_false]
  intro m _
  simp only [Bool.not_eq_true]
  have hp : isPunct3 ((List.replicate k 'A').getD i ' ') = false := by
    rw [getD_replicate]
    split <;> decide
  simp only [hp, Bool.and_false, Bool.false_and]

theorem isb_replicate_lt {n i : Nat} (h : i + 1 < n) :
    is_sentence_boundary (List.replicate n 'A') i = false := by
  unfold is_sentence_boundary
  rw [List.length_replicate, if_neg (by omega)]
  simp only [List.drop_replicate, List.take_replicate, seSearch_replicate]
  rfl

theorem isb_replicate_end {n i : Nat} (h : n - 1 ≤ i) :
    is_sentence_boundary (List.replicate n 'A') i = true := by
  unfold is_sentence_boundary
  rw [List.length_replicate, if_pos h]

theorem fsb_fold_const (text : List Char) (tgt : Nat) :
    ∀ (l : List Nat) (acc : Nat × Option ℚ),
      (∀ i ∈ l, is_sentence_boundary text i = false) →
      l.foldl (fsbStep text tgt) acc = acc := by
  intro l
  induction l with
  | nil => intro acc _; rfl
  | cons i t ih =>
    intro acc h
    rw [List.foldl_cons]
    have hstep : fsbStep text tgt acc i = acc := by
      unfold fsbStep
      rw [h i (List.mem_cons_self _ _)]
      simp
    rw [hstep]
    exact ih acc (fun j hj => h j (List.mem_cons_of_mem _ hj))

set_option maxRecDepth 20000 in
theorem fsbIdxs_T_1000 :
    fsbIdxs (List.replicate 2000 'A') 1000 = List.range' 850 300 := by
  unfold fsbIdxs
  rw [List.length_replicate]
  norm_num [Nat.min_def]

set_option maxRecDepth 20000 in
theorem fsbIdxs_T_1850 :
    fsbIdxs (List.replicate 2000 'A') 1850 = List.range' 1700 300 := by
  unfold fsbIdxs
  rw [List.length_replicate]
  norm_num [Nat.min_def]

set_option maxRecDepth 4000 in
theorem fsb_T_1000 : find_smart_break (List.replicate 2000 'A') 1000 = 1000 := by
  unfold find_smart_break
  rw [fsbIdxs_T_1000]
  rw [fsb_fold_const _ _ _ _ (by
    intro i hi
    rw [List.mem_range'_1] at hi
    exact isb_replicate_lt (by omega))]
  have hpara : (List.range' 850 300).find? (fsbParaPred (List.replicate 2000 'A') 1000)
      = none := by
    rw [List.find?_eq_none]
    intro i _
    simp only [Bool.not_eq_true]
    unfold fsbParaPred paraBreakAt
    rw [List.drop_replicate, List.take_replicate]
    have hne : ((List.replicate (min 2 (2000 - i)) 'A' : List Char) == ['\n', '\n'])
        = false := by
      rw [beq_eq_false_iff_ne]
      intro heq
      have hmem : '\n' ∈ List.replicate (min 2 (2000 - i)) 'A' := by rw [heq]; simp
      have := List.eq_of_mem_replicate hmem
      exact absurd this (by decide)
    rw [hne, Bool.false_and]
  have hsoft : (List.range' 850 300).find? (fsbSoftPred (List.replicate 2000 'A') 1000)
      = none := by
    rw [List.find?_eq_none]
    intro i _
    simp only [Bool.not_eq_true]
    unfold fsbSoftPred
    have hp : isSoftPunct ((List.replicate 2000 'A').getD i ' ') = false := by
      rw [getD_replicate]
      split <;> decide
    rw [hp, Bool.false_and]
  rw [hpara, hsoft]
  rfl

set_option maxRecDepth 4000 in
theorem fsb_T_1850 : find_smart_break (List.replicate 2000 'A') 1850 = 1999 := by
  unfold find_smart_break
  rw [fsbIdxs_T_1850]
  rw [show List.range' 1700 300 = List.range' 1700 299 ++ [1999] from by
    rw [show (300 : Nat) = 299 + 1 from rfl, List.range'_concat]]
  rw [List.foldl_append]
  rw [fsb_fold_const (List.replicate 2000 'A') 1850 (List.range' 1700 299) (1850, none) (by
    intro i hi
    rw [List.mem_range'_1] at hi
    exact isb_replicate_lt (by omega))]
  rw [List.foldl_cons, List.foldl_nil]
  have hstep : (fsbStep (List.replicate 2000 'A') 1850 ((1850 : Nat), (none : Option ℚ)) 1999).1
      = 1999 := by
    unfold fsbStep
    rw [isb_replicate_end (show (2000 : Nat) - 1 ≤ 1999 by norm_num)]
    rfl
  rw [hstep]
  rfl

theorem splitLoopF_cont (cfg : Cfg) (text : List Char) (f start : Nat) (acc : List (List Char))
    (hs : start < text.length) (he : ¬ text.length ≤ start + cfg.chunk_size) :
    splitLoopF cfg text (f + 1) start acc =
      splitLoopF cfg text f
        (nextStart cfg start (find_smart_break text (start + cfg.chunk_size)))
        (if keepChunk cfg (pstrip ((text.take (find_smart_break text
            (start + cfg.chunk_size))).drop start))
          then acc ++ [pstrip ((text.take (find_smart_break text
            (start + cfg.chunk_size))).drop start)]
          else acc) := by
  rw [splitLoopF, if_pos hs, if_neg he]

theorem splitLoopF_last (cfg : Cfg) (text : List Char) (f start : Nat) (acc : List (List Char))
    (hs : start < text.length) (he : text.length ≤ start + cfg.chunk_size) :
    splitLoopF cfg text (f + 1) start acc =
      some (if keepChunk cfg (pstrip (text.drop start))
        then acc ++ [pstrip (text.drop start)] else acc) := by
  rw [splitLoopF, if_pos hs, if_pos he]

theorem pstrip_replicate (n : Nat) : pstrip (List.replicate n 'A') = List.replicate n 'A' := by
  have hdw : ∀ m, (List.replicate m 'A').dropWhile pyWs = List.replicate m 'A' := by
    intro m
    cases m with
    | zero => rfl
    | succ k => rw [List.replicate_succ, List.dropWhile_cons, if_neg (by decide)]
  unfold pstrip lstrip rstrip
  rw [hdw, List.reverse_replicate, hdw, List.reverse_replicate]

set_option maxRecDepth 20000 in
theorem split_replicate_eval :
    split_text_smart ⟨1000, 150, 200, 2000⟩ (List.replicate 2000 'A') =
      [List.replicate 1000 'A', List.replicate 1149 'A'] := by
  unfold split_text_smart
  rw [List.length_replicate]
  rw [show (2000 : Nat) = 1999 + 1 from rfl,
    splitLoopF_cont _ _ 1999 0 [] (by rw [List.length_replicate]; norm_num)
      (by rw [List.length_replicate]; norm_num)]
  rw [show (0 + Cfg.chunk_size ⟨1000, 150, 200, 2000⟩ : Nat) = 1000 from rfl, fsb_T_1000]
  rw [show nextStart ⟨1000, 150, 200, 2000⟩ 0 1000 = 850 from rfl]
  rw [show ((List.replicate 2000 'A').take 1000).drop 0 = List.replicate 1000 'A' from by
    rw [List.take_replicate, List.drop_zero, show min 1000 2000 = 1000 from rfl]]
  rw [pstrip_replicate]
  rw [if_pos (show keepChunk ⟨1000, 150, 200, 2000⟩ (List.replicate 1000 'A') = true from by
    rw [keepChunk, List.length_replicate]
    norm_num [List.isEmpty_iff])]
  rw [List.nil_append]
  rw [show (1999 : Nat) = 1998 + 1 from rfl,
    splitLoopF_cont _ _ 1998 850 _ (by rw [List.length_replicate]; norm_num)
      (by rw [List.length_replicate]; norm_num)]
  rw [show (850 + Cfg.chunk_size ⟨1000, 150, 200, 2000⟩ : Nat) = 1850 from rfl, fsb_T_1850]
  rw [show nextStart ⟨1000, 150, 200, 2000⟩ 850 1999 = 1849 from rfl]
  rw [show ((List.replicate 2000 'A').take 1999).drop 850 = List.replicate 1149 'A' from by
    rw [List.take_replicate, List.drop_replicate, show min 1999 2000 = 1999 from rfl]]
  rw [pstrip_replicate]
  rw [if_pos (show keepChunk ⟨1000, 150, 200, 2000⟩ (List.replicate 1149 'A') = true from by
    rw [keepChunk, List.length_replicate]
    norm_num [List.isEmpty_iff])]
  rw [show (1998 : Nat) = 1997 + 1 from rfl,
    splitLoopF_last _ _ 1997 1849 _ (by rw [List.length_replicate]; norm_num)
      (by rw [List.length_replicate]; norm_num)]
  rw [show (List.replicate 2000 'A').drop 1849 = List.replicate 151 'A' from by
    rw [List.drop_replicate]]
  rw [pstrip_replicate]
  rw [if_neg (show ¬ keepChunk ⟨1000, 150, 200, 2000⟩ (List.replicate 151 'A') = true from by
    rw [keepChunk, List.length_replicate]
    norm_num)]
  rfl

/-- Claim C5.  Splitting the text of 2000 letters A with chunk size
1000, overlap 150 and minimum size 200 produces exactly two chunks:
the first cut stays at the hard target 1000 (no boundary, paragraph
break or soft punctuation exists in the window), the second cut lands
on the end-of-text boundary at offset 1999, and the trailing 151
letters are dropped as a sub-minimum remainder; the second chunk has
1149 characters, at most 1150. -/
theorem claim_C5 :
    split_text_smart ⟨1000, 150, 200, 2000⟩ (List.replicate 2000 'A') =
        [List.replicate 1000 'A', List.replicate 1149 'A'] ∧
      (split_text_smart ⟨1000, 150, 200, 2000⟩ (List.replicate 2000 'A')).length = 2 ∧
      ((split_text_smart ⟨1000, 150, 200, 2000⟩ (List.replicate 2000 'A')).getD 1 []).length
        ≤ 1150 := by
  refine ⟨split_replicate_eval, ?_, ?_⟩
  · rw [split_replicate_eval]
    rfl
  · rw [split_replicate_eval,
      show ([List.replicate 1000 'A', List.replicate 1149 'A'].getD 1 [])
        = List.replicate 1149 'A' from rfl,
      List.length_replicate]
    norm_num
